import Mathlib

set_option maxHeartbeats 1000000

/-!
Shallow embedding of the AI attribution engine from
src/.cursor/scripts/ai-attribution.ts: tokenizer, vocabulary builder,
TF-IDF vectorizer, cosine similarity, snapshot loader core, diff parser
core, and the attribution aggregation. JavaScript numbers are modelled as
exact reals, arrays as lists, and Map objects as insertion-ordered
association lists.
-/

/-- One historical change record (interface ChangeSnapshot): a file entry is
(file, additions, deletions). -/
structure FileChange where
  file : String
  additions : List String
  deletions : List String
deriving DecidableEq

/-- interface ChangeSnapshot from ai-attribution.ts. -/
structure ChangeSnapshot where
  timestamp : String
  branch : String
  changes : List FileChange
deriving DecidableEq

/-- interface Vocabulary: tokenIndex is a JS Map modelled as an
insertion-ordered association list, docFreq a JS array of counters. -/
structure Vocabulary where
  tokenIndex : List (String × ℕ)
  docFreq : List ℕ
  docCount : ℕ
deriving DecidableEq

/-- Result record of attributeChanges. -/
structure AttributionResult where
  totalLines : ℕ
  aiGeneratedLines : ℕ
  aiPercentage : ℝ
  needsCoAuthor : Bool

/-- Character class of the first TOKEN_REGEX alternative, [a-z0-9_] with the
case-insensitive flag: ASCII letters, digits and underscore. -/
def isTokChar (c : Char) : Bool := c.isAlphanum || c = '_'

/-- Greedy match of [a-z0-9_]+: the longest identifier-character run and the
remaining input. -/
def splitRun : List Char → List Char × List Char
  | [] => ([], [])
  | c :: rest =>
    if isTokChar c then
      let pr := splitRun rest
      (c :: pr.1, pr.2)
    else ([], c :: rest)

/-- The closed set of two-character operator alternatives of TOKEN_REGEX. -/
def twoCharOp (c d : Char) : Bool :=
  (c = '=' && d = '>') || (c = '=' && d = '=') || (c = '!' && d = '=') ||
  (c = '<' && d = '=') || (c = '>' && d = '=') || (c = '&' && d = '&') ||
  (c = '|' && d = '|')

/-- The single structural punctuation characters of TOKEN_REGEX. -/
def isStructChar (c : Char) : Bool :=
  c = '{' || c = '}' || c = '(' || c = ')' || c = '[' || c = ']' ||
  c = ',' || c = '.' || c = ';'

/-- JS String.prototype.startsWith, computed on the character list so that
it evaluates by kernel reduction. -/
def strStartsWith (s p : String) : Bool := p.toList.isPrefixOf s.toList

/-- JS String.prototype.trim: strip whitespace from both ends. -/
def strTrim (s : String) : String :=
  String.mk (((s.toList.dropWhile Char.isWhitespace).reverse.dropWhile
    Char.isWhitespace).reverse)

/-- JS String.prototype.substring(n): drop the first n characters. -/
def strDrop (s : String) (n : ℕ) : String := String.mk (s.toList.drop n)

/-- Fuel-indexed scanner equivalent to global TOKEN_REGEX matching: at each
position try the identifier run, then a two-character operator, then a
structural character, otherwise skip the character. Every step consumes at
least one character, so fuel equal to the input length suffices. -/
def tokenizeAux : ℕ → List Char → List (List Char)
  | 0, _ => []
  | _, [] => []
  | fuel + 1, c :: rest =>
    if isTokChar c then
      let pr := splitRun rest
      (c :: pr.1) :: tokenizeAux fuel pr.2
    else
      match rest with
      | [] => if isStructChar c then [[c]] else []
      | d :: rest2 =>
        if twoCharOp c d then [c, d] :: tokenizeAux fuel rest2
        else if isStructChar c then [c] :: tokenizeAux fuel rest
        else tokenizeAux fuel rest

/-- tokenize(text): scan with TOKEN_REGEX, then lowercase every token. -/
def tokenize (text : String) : List String :=
  (tokenizeAux text.toList.length text.toList).map
    (fun t => String.mk (t.map Char.toLower))

/-- Map.get on the tokenIndex association list. -/
def lookupTok : List (String × ℕ) → String → Option ℕ
  | [], _ => none
  | p :: rest, t => if p.1 = t then some p.2 else lookupTok rest t

/-- JS array assignment a[i] = x: update in range, otherwise extend the array
to length i + 1 (holes read back as 0 through the code's fallback). -/
def arraySet (l : List ℕ) (i : ℕ) (x : ℕ) : List ℕ :=
  if i < l.length then l.set i x else l ++ List.replicate (i - l.length) 0 ++ [x]

/-- Iteration order of new Set(tokens): first-occurrence order with
duplicates removed. -/
def distinctTokens (ts : List String) : List String :=
  ts.foldl (fun acc t => if t ∈ acc then acc else acc ++ [t]) []

/-- Body of the per-token forEach in buildVocabulary: insert an unseen token
at index tokenIndex.size with a fresh zero counter, then increment the
counter at the token's index. -/
def addToken (st : List (String × ℕ) × List ℕ) (token : String) :
    List (String × ℕ) × List ℕ :=
  let st1 :=
    if (lookupTok st.1 token).isSome then st
    else (st.1 ++ [(token, st.1.length)], arraySet st.2 st.1.length 0)
  let index := (lookupTok st1.1 token).getD 0
  (st1.1, arraySet st1.2 index (st1.2.getD index 0 + 1))

/-- buildVocabulary(documents): fold every document's set of distinct tokens
through addToken and record the document count. -/
def buildVocabulary (documents : List String) : Vocabulary :=
  let st := documents.foldl
    (fun st doc => (distinctTokens (tokenize doc)).foldl addToken st)
    (([] : List (String × ℕ)), ([] : List ℕ))
  { tokenIndex := st.1, docFreq := st.2, docCount := documents.length }

/-- isSkippableLine: blank after trimming, or a line comment, or a block
comment continuation. -/
def isSkippableLine (line : String) : Bool :=
  let trimmed := strTrim line
  trimmed.length == 0 || strStartsWith trimmed "//" || strStartsWith trimmed "*"

/-- diffMap.get(file)?.push(line): append to the entry when the key is
present, otherwise do nothing (the optional chain makes a missing key a
no-op). -/
def mapPush : List (String × List String) → String → String → List (String × List String)
  | [], _, _ => []
  | e :: rest, k, v => if e.1 = k then (e.1, e.2 ++ [v]) :: rest else e :: mapPush rest k v

/-- diffMap.has(file). -/
def mapHasKey (m : List (String × List String)) (k : String) : Bool :=
  m.any (fun e => e.1 == k)

/-- One iteration of the line loop in getCurrentDiff: a +++ header switches
the current file (registering an empty entry if new); any other +-line is
appended to the current file's entry when that entry exists. -/
def diffStep (st : List (String × List String) × String) (line : String) :
    List (String × List String) × String :=
  if strStartsWith line "+++" then
    let cf := strDrop line 6
    (if mapHasKey st.1 cf then st.1 else st.1 ++ [(cf, [])], cf)
  else if strStartsWith line "+" && !strStartsWith line "+++" then
    (mapPush st.1 st.2 (strDrop line 1), st.2)
  else st

/-- Pure core of getCurrentDiff: parse the diff lines into the
file-to-added-lines map, starting from an empty map and an empty current
file name. -/
def getCurrentDiffCore (lines : List String) : List (String × List String) :=
  (lines.foldl diffStep ([], "")).1

/-- Code-unit comparison of timestamp strings, standing in for
localeCompare on the ASCII timestamps the snapshots use. -/
def charListLt : List Char → List Char → Bool
  | [], [] => false
  | [], _ :: _ => true
  | _ :: _, [] => false
  | a :: as, b :: bs => if a < b then true else if b < a then false else charListLt as bs

/-- Strict timestamp order used by the descending sort. -/
def tsLt (a b : String) : Bool := charListLt a.toList b.toList

/-- Insertion step of sorting snapshots by timestamp descending. -/
def insertDesc (s : ChangeSnapshot) : List ChangeSnapshot → List ChangeSnapshot
  | [] => [s]
  | t :: rest => if tsLt t.timestamp s.timestamp then s :: t :: rest else t :: insertDesc s rest

/-- Pure core of loadRecentSnapshots after the directory walk: sort all
parsed snapshots by timestamp descending and keep the first limit records.
The source consults no clock and applies no age filter. -/
def loadRecentSnapshotsCore (snapshots : List ChangeSnapshot) (limit : ℕ) :
    List ChangeSnapshot :=
  (snapshots.foldr insertDesc []).take limit

/-- Pairwise product sum of two lists, the loop body of cosineSimilarity on
the padded equal-length arrays. -/
noncomputable def dotAux : List ℝ → List ℝ → ℝ
  | x :: xs, y :: ys => x * y + dotAux xs ys
  | _, _ => 0

/-- cosineSimilarity(vec1, vec2): zero-pad both vectors to the longer
length, accumulate the dot product and both squared norms, return 0 when
either squared norm is 0, else dot / (sqrt(norm1) * sqrt(norm2)). -/
noncomputable def cosineSimilarity (vec1 vec2 : List ℝ) : ℝ :=
  let maxLen := max vec1.length vec2.length
  let v1 := vec1 ++ List.replicate (maxLen - vec1.length) 0
  let v2 := vec2 ++ List.replicate (maxLen - vec2.length) 0
  let dotProduct := dotAux v1 v2
  let norm1 := dotAux v1 v1
  let norm2 := dotAux v2 v2
  if norm1 = 0 ∨ norm2 = 0 then 0
  else dotProduct / (Real.sqrt norm1 * Real.sqrt norm2)

/-- counts.set(index, (counts.get(index) || 0) + 1) on the Map of token
counts, modelled as an insertion-ordered association list. -/
def bumpCount : List (ℕ × ℕ) → ℕ → List (ℕ × ℕ)
  | [], i => [(i, 1)]
  | e :: rest, i => if e.1 = i then (e.1, e.2 + 1) :: rest else e :: bumpCount rest i

/-- The token-counting loop of vectorize: unknown tokens are skipped. -/
def countTokens (tokens : List String) (ti : List (String × ℕ)) : List (ℕ × ℕ) :=
  tokens.foldl (fun acc tok =>
    match lookupTok ti tok with
    | none => acc
    | some idx => bumpCount acc idx) []

/-- vectorize(text, vocabulary): empty vector for an empty vocabulary or
zero docCount, a zero vector for token-free text, otherwise a TF-IDF entry
at each counted token's index. -/
noncomputable def vectorize (text : String) (vocabulary : Vocabulary) : List ℝ :=
  let vocabSize := vocabulary.tokenIndex.length
  if vocabSize = 0 ∨ vocabulary.docCount = 0 then [] else
  let tokens := tokenize text
  if tokens.length = 0 then List.replicate vocabSize 0 else
  let counts := countTokens tokens vocabulary.tokenIndex
  counts.foldl (fun vector e =>
    let tf : ℝ := (e.2 : ℝ) / (tokens.length : ℝ)
    let idf : ℝ := Real.log (((vocabulary.docCount : ℝ) + 1) /
      ((vocabulary.docFreq.getD e.1 0 : ℝ) + 1)) + 1
    vector.set e.1 (tf * idf)) (List.replicate vocabSize 0)

/-- The per-line snapshot scan of attributeChanges: track the running
maximum similarity and stop at the first similarity at or above the
threshold. -/
noncomputable def lineMaxSimAux (cur : List ℝ) (threshold : ℝ) :
    List (List ℝ) → ℝ → ℝ
  | [], acc => acc
  | v :: rest, acc =>
    let similarity := cosineSimilarity cur v
    let acc2 := max acc similarity
    if threshold ≤ similarity then acc2 else lineMaxSimAux cur threshold rest acc2

/-- The scan started from maxSimilarity = 0 as in the source loop. -/
noncomputable def lineMaxSim (cur : List ℝ) (snapVecs : List (List ℝ))
    (threshold : ℝ) : ℝ :=
  lineMaxSimAux cur threshold snapVecs 0

/-- Snapshot line corpus: every addition of every change of every snapshot,
skippable lines dropped, survivors trimmed. -/
def snapshotSegments (snapshots : List ChangeSnapshot) : List String :=
  snapshots.flatMap (fun s => s.changes.flatMap (fun ch =>
    (ch.additions.filter (fun a => !isSkippableLine a)).map strTrim))

/-- Current diff line corpus: every added line trimmed first, skippable
lines then dropped. -/
def currentSegments (currentDiff : List (String × List String)) : List String :=
  currentDiff.flatMap (fun e => (e.2.map strTrim).filter (fun l => !isSkippableLine l))

/-- The shared vocabulary of one attribution run, built over the snapshot
corpus followed by the current-diff corpus. -/
def vocabularyOf (snapshots : List ChangeSnapshot)
    (currentDiff : List (String × List String)) : Vocabulary :=
  buildVocabulary (snapshotSegments snapshots ++ currentSegments currentDiff)

/-- The snapshot line vectors of one attribution run. -/
noncomputable def snapshotVectorsOf (snapshots : List ChangeSnapshot)
    (currentDiff : List (String × List String)) : List (List ℝ) :=
  (snapshotSegments snapshots).map
    (fun text => vectorize text (vocabularyOf snapshots currentDiff))

/-- aiGeneratedLines: the number of retained current-diff lines whose
short-circuit scan reaches the threshold. -/
noncomputable def aiLineCount (snapshots : List ChangeSnapshot)
    (currentDiff : List (String × List String)) (threshold : ℝ) : ℕ :=
  ((currentSegments currentDiff).filter (fun line =>
    decide (threshold ≤ lineMaxSim (vectorize line (vocabularyOf snapshots currentDiff))
      (snapshotVectorsOf snapshots currentDiff) threshold))).length

/-- aiPercentage: (aiGeneratedLines / totalLines) * 100 behind the
totalLines > 0 guard, 0 otherwise. -/
noncomputable def aiPercentageOf (ai total : ℕ) : ℝ :=
  if 0 < total then ((ai : ℝ) / (total : ℝ)) * 100 else 0

/-- Pure core of attributeChanges after the snapshot and diff inputs are
obtained: build the shared vocabulary over both corpora, vectorize the
snapshot lines, classify every current line by the short-circuit scan, and
aggregate counts, percentage and the co-author decision. -/
noncomputable def attributeCore (snapshots : List ChangeSnapshot)
    (currentDiff : List (String × List String)) (threshold : ℝ) : AttributionResult :=
  { totalLines := (currentSegments currentDiff).length
    aiGeneratedLines := aiLineCount snapshots currentDiff threshold
    aiPercentage := aiPercentageOf (aiLineCount snapshots currentDiff threshold)
      (currentSegments currentDiff).length
    needsCoAuthor := decide ((10 : ℝ) <
      aiPercentageOf (aiLineCount snapshots currentDiff threshold)
        (currentSegments currentDiff).length) }

lemma dotAux_nil_left (l : List ℝ) : dotAux [] l = 0 := by
  cases l <;> rfl

lemma dotAux_nil_right (l : List ℝ) : dotAux l [] = 0 := by
  cases l <;> rfl

lemma dotAux_cons (x y : ℝ) (xs ys : List ℝ) :
    dotAux (x :: xs) (y :: ys) = x * y + dotAux xs ys := rfl

lemma dotAux_zero_left : ∀ (k : ℕ) (l : List ℝ), dotAux (List.replicate k 0) l = 0
  | 0, l => dotAux_nil_left l
  | k + 1, [] => rfl
  | k + 1, x :: xs => by
    rw [List.replicate_succ, dotAux_cons, dotAux_zero_left k xs]
    ring

lemma dotAux_zero_right : ∀ (l : List ℝ) (k : ℕ), dotAux l (List.replicate k 0) = 0
  | l, 0 => dotAux_nil_right l
  | [], k + 1 => rfl
  | x :: xs, k + 1 => by
    rw [List.replicate_succ, dotAux_cons, dotAux_zero_right xs k]
    ring

/-- Trailing zero padding on either side never changes the pairwise product
sum. -/
lemma dotAux_pad : ∀ (v1 v2 : List ℝ) (j k : ℕ),
    dotAux (v1 ++ List.replicate j 0) (v2 ++ List.replicate k 0) = dotAux v1 v2
  | [], v2, j, k => by
    rw [List.nil_append, dotAux_zero_left, dotAux_nil_left]
  | x :: xs, [], j, k => by
    rw [List.nil_append, dotAux_zero_right, dotAux_nil_right]
  | x :: xs, y :: ys, j, k => by
    rw [List.cons_append, List.cons_append, dotAux_cons, dotAux_cons,
      dotAux_pad xs ys j k]

/-- Normal form of cosineSimilarity: the padding inside the definition is
absorbed, leaving the unpadded dot product and squared norms. -/
lemma cosineSimilarity_eq (v1 v2 : List ℝ) :
    cosineSimilarity v1 v2 =
      if dotAux v1 v1 = 0 ∨ dotAux v2 v2 = 0 then 0
      else dotAux v1 v2 / (Real.sqrt (dotAux v1 v1) * Real.sqrt (dotAux v2 v2)) := by
  simp only [cosineSimilarity, dotAux_pad]

lemma dotAux_self_nonneg : ∀ v : List ℝ, 0 ≤ dotAux v v
  | [] => le_refl 0
  | x :: xs => by
    rw [dotAux_cons]
    exact add_nonneg (mul_self_nonneg x) (dotAux_self_nonneg xs)

/-- Claim C5: if either argument has squared norm exactly zero (zero padding does
not change a squared norm), cosineSimilarity returns 0; when both squared
norms are nonzero the divisor sqrt(norm1) * sqrt(norm2) is nonzero, so the
division is never performed with a zero divisor and the result is a
well-defined real number. -/
theorem cosineSimilarity_zero_norm_safe (v1 v2 : List ℝ) :
    ((dotAux v1 v1 = 0 ∨ dotAux v2 v2 = 0) → cosineSimilarity v1 v2 = 0) ∧
    (dotAux v1 v1 ≠ 0 → dotAux v2 v2 ≠ 0 →
      Real.sqrt (dotAux v1 v1) * Real.sqrt (dotAux v2 v2) ≠ 0) := by
  constructor
  · intro h
    rw [cosineSimilarity_eq, if_pos h]
  · intro h1 h2
    have p1 : 0 < dotAux v1 v1 := lt_of_le_of_ne (dotAux_self_nonneg v1) (Ne.symm h1)
    have p2 : 0 < dotAux v2 v2 := lt_of_le_of_ne (dotAux_self_nonneg v2) (Ne.symm h2)
    exact mul_ne_zero (ne_of_gt (Real.sqrt_pos.mpr p1)) (ne_of_gt (Real.sqrt_pos.mpr p2))

/-- Witness for cosineSimilarity_zero_norm_safe at the zero vector [0]
against [1]. -/
theorem cosineSimilarity_zero_norm_safe_witness :
    (dotAux [(0 : ℝ)] [(0 : ℝ)] = 0 ∨ dotAux [(1 : ℝ)] [(1 : ℝ)] = 0) ∧
    cosineSimilarity [(0 : ℝ)] [(1 : ℝ)] = 0 := by
  have hz : dotAux [(0 : ℝ)] [(0 : ℝ)] = 0 := by
    rw [dotAux_cons, dotAux_nil_left]; ring
  exact ⟨Or.inl hz,
    (cosineSimilarity_zero_norm_safe [(0 : ℝ)] [(1 : ℝ)]).1 (Or.inl hz)⟩

/-- Claim C8: appending a zero entry to either argument never changes
cosineSimilarity, so similarity on unequal lengths is computed as if the
shorter vector were right-padded with zeros. -/
theorem cosineSimilarity_append_zero (v1 v2 : List ℝ) :
    cosineSimilarity v1 (v2 ++ [0]) = cosineSimilarity v1 v2 ∧
    cosineSimilarity (v1 ++ [0]) v2 = cosineSimilarity v1 v2 := by
  have pad1 : ∀ w1 w2 : List ℝ, dotAux w1 (w2 ++ [(0 : ℝ)]) = dotAux w1 w2 := by
    intro w1 w2
    have h := dotAux_pad w1 w2 0 1
    simpa using h
  have pad2 : ∀ w1 w2 : List ℝ, dotAux (w1 ++ [(0 : ℝ)]) w2 = dotAux w1 w2 := by
    intro w1 w2
    have h := dotAux_pad w1 w2 1 0
    simpa using h
  have padBoth : ∀ w : List ℝ, dotAux (w ++ [(0 : ℝ)]) (w ++ [(0 : ℝ)]) = dotAux w w := by
    intro w
    have h := dotAux_pad w w 1 1
    simpa using h
  constructor
  · rw [cosineSimilarity_eq, cosineSimilarity_eq, padBoth, pad1]
  · rw [cosineSimilarity_eq, cosineSimilarity_eq, padBoth, pad2]

/-- Claim C9: cosineSimilarity of a vector with itself is exactly 1 whenever the
squared norm is nonzero. -/
theorem cosineSimilarity_self_eq_one (v : List ℝ) (h : dotAux v v ≠ 0) :
    cosineSimilarity v v = 1 := by
  rw [cosineSimilarity_eq, if_neg (by simp [h]), Real.mul_self_sqrt (dotAux_self_nonneg v)]
  exact div_self h

/-- Witness for cosineSimilarity_self_eq_one at the vector [1]. -/
theorem cosineSimilarity_self_eq_one_witness :
    dotAux [(1 : ℝ)] [(1 : ℝ)] ≠ 0 ∧ cosineSimilarity [(1 : ℝ)] [(1 : ℝ)] = 1 := by
  have h1 : dotAux [(1 : ℝ)] [(1 : ℝ)] = 1 := by
    rw [dotAux_cons, dotAux_nil_left]; ring
  have hne : dotAux [(1 : ℝ)] [(1 : ℝ)] ≠ 0 := by rw [h1]; norm_num
  exact ⟨hne, cosineSimilarity_self_eq_one [(1 : ℝ)] hne⟩

/-- A fold of max reaches t exactly when the seed or some element does. -/
lemma foldl_max_ge_iff (t : ℝ) : ∀ (l : List ℝ) (a : ℝ),
    t ≤ l.foldl max a ↔ t ≤ a ∨ ∃ x ∈ l, t ≤ x
  | [], a => by simp
  | b :: l, a => by
    rw [List.foldl_cons, foldl_max_ge_iff t l (max a b)]
    simp only [le_max_iff, List.mem_cons]
    constructor
    · rintro ((h | h) | ⟨x, hx, hxt⟩)
      · exact Or.inl h
      · exact Or.inr ⟨b, Or.inl rfl, h⟩
      · exact Or.inr ⟨x, Or.inr hx, hxt⟩
    · rintro (h | ⟨x, (rfl | hx), hxt⟩)
      · exact Or.inl (Or.inl h)
      · exact Or.inl (Or.inr hxt)
      · exact Or.inr ⟨x, hx, hxt⟩

/-- The short-circuit scan reaches the threshold exactly when the full fold
of max over all similarities from the same seed does. -/
lemma lineMaxSimAux_ge_iff (cur : List ℝ) (threshold : ℝ) :
    ∀ (snaps : List (List ℝ)) (acc : ℝ),
    threshold ≤ lineMaxSimAux cur threshold snaps acc ↔
      threshold ≤ (snaps.map (cosineSimilarity cur)).foldl max acc
  | [], acc => Iff.rfl
  | v :: rest, acc => by
    rw [List.map_cons, List.foldl_cons]
    show threshold ≤ (if threshold ≤ cosineSimilarity cur v
        then max acc (cosineSimilarity cur v)
        else lineMaxSimAux cur threshold rest (max acc (cosineSimilarity cur v))) ↔ _
    by_cases hc : threshold ≤ cosineSimilarity cur v
    · rw [if_pos hc]
      have h1 : threshold ≤ max acc (cosineSimilarity cur v) :=
        le_max_of_le_right hc
      rw [foldl_max_ge_iff]
      simp [h1]
    · rw [if_neg hc]
      exact lineMaxSimAux_ge_iff cur threshold rest (max acc (cosineSimilarity cur v))

/-- Claim C4: for a positive threshold (the attribution cutoff, default 0.85),
the short-circuit scan classifies a current-diff line as AI-generated
exactly when some snapshot vector has cosine similarity at or above the
threshold, and the classification agrees with scanning all snapshot
vectors and taking the maximum (the fold of max from the same 0 seed). -/
theorem lineScan_classification (cur : List ℝ) (snaps : List (List ℝ))
    (threshold : ℝ) (ht : 0 < threshold) :
    (threshold ≤ lineMaxSim cur snaps threshold ↔
      ∃ v ∈ snaps, threshold ≤ cosineSimilarity cur v) ∧
    (threshold ≤ lineMaxSim cur snaps threshold ↔
      threshold ≤ (snaps.map (cosineSimilarity cur)).foldl max 0) := by
  have hfull := lineMaxSimAux_ge_iff cur threshold snaps 0
  constructor
  · rw [lineMaxSim, hfull, foldl_max_ge_iff]
    have hnot : ¬ threshold ≤ 0 := not_le.mpr ht
    simp only [hnot, false_or, List.mem_map]
    constructor
    · rintro ⟨x, ⟨v, hv, rfl⟩, hxt⟩
      exact ⟨v, hv, hxt⟩
    · rintro ⟨v, hv, hvt⟩
      exact ⟨cosineSimilarity cur v, ⟨v, hv, rfl⟩, hvt⟩
  · exact hfull

/-- Witness for lineScan_classification: one snapshot vector equal to the
current vector [1], threshold 1/2. -/
theorem lineScan_classification_witness :
    (0 : ℝ) < 1 / 2 ∧
    ((1 / 2 : ℝ) ≤ lineMaxSim [(1 : ℝ)] [[(1 : ℝ)]] (1 / 2) ↔
      ∃ v ∈ [[(1 : ℝ)]], (1 / 2 : ℝ) ≤ cosineSimilarity [(1 : ℝ)] v) ∧
    ((1 / 2 : ℝ) ≤ lineMaxSim [(1 : ℝ)] [[(1 : ℝ)]] (1 / 2) ↔
      (1 / 2 : ℝ) ≤ ([[(1 : ℝ)]].map (cosineSimilarity [(1 : ℝ)])).foldl max 0) := by
  have h := lineScan_classification [(1 : ℝ)] [[(1 : ℝ)]] (1 / 2) (by norm_num)
  exact ⟨by norm_num, h.1, h.2⟩

/-- Claim C2 (code bug): loadRecentSnapshots applies no retention filtering. The
pure core after the directory walk never consults the current time, so a
single snapshot is returned whatever its timestamp says — in particular a
record arbitrarily older than 4 hours survives up to the limit cut. -/
theorem loadRecentSnapshots_no_age_filter (s : ChangeSnapshot) :
    loadRecentSnapshotsCore [s] 5 = [s] := rfl

/-- A line that is not a +++ header leaves the initial empty parser state
unchanged: its optional-chained push lands on a missing map key. -/
lemma diffStep_empty (line : String) (h : strStartsWith line "+++" = false) :
    diffStep ([], "") line = ([], "") := by
  unfold diffStep
  rw [if_neg (by simp [h])]
  by_cases h2 : (strStartsWith line "+" && !strStartsWith line "+++") = true
  · rw [if_pos h2]
    rfl
  · rw [if_neg h2]

lemma foldl_diffStep_no_header (pre : List String)
    (h : ∀ l ∈ pre, strStartsWith l "+++" = false) :
    pre.foldl diffStep ([], "") = ([], "") := by
  induction pre with
  | nil => rfl
  | cons a as ih =>
    rw [List.foldl_cons, diffStep_empty a (h a (by simp))]
    exact ih (fun l hl => h l (List.mem_cons_of_mem a hl))

/-- Claim C3 counterexample: an added line before the first +++ header is not
collected under the empty/unknown file key — the parsed map of this
concrete diff has no entry for the empty key at all, and the pre-header
line "foo" appears nowhere. -/
theorem getCurrentDiff_drops_preheader_line :
    getCurrentDiffCore ["+foo", "+++ b/a.ts", "+bar"] = [("a.ts", ["bar"])] ∧
    (getCurrentDiffCore ["+foo", "+++ b/a.ts", "+bar"]).lookup "" = none := by
  constructor <;> rfl

/-- Claim C3 amended: added lines that appear before the first +++ file header
are discarded, not collected: the map starts empty, so the optional-chained
push for the unknown current file is a no-op, and parsing behaves as if
every line before the first header were absent. -/
theorem getCurrentDiff_preheader_lines_dropped (pre rest : List String)
    (h : ∀ l ∈ pre, strStartsWith l "+++" = false) :
    getCurrentDiffCore (pre ++ rest) = getCurrentDiffCore rest := by
  unfold getCurrentDiffCore
  rw [List.foldl_append, foldl_diffStep_no_header pre h]

/-- Witness for getCurrentDiff_preheader_lines_dropped on the
counterexample diff. -/
theorem getCurrentDiff_preheader_lines_dropped_witness :
    (∀ l ∈ ["+foo"], strStartsWith l "+++" = false) ∧
    getCurrentDiffCore (["+foo"] ++ ["+++ b/a.ts", "+bar"]) =
      getCurrentDiffCore ["+++ b/a.ts", "+bar"] := by
  refine ⟨?_, getCurrentDiff_preheader_lines_dropped ["+foo"] ["+++ b/a.ts", "+bar"] ?_⟩ <;>
    · intro l hl
      simp only [List.mem_singleton] at hl
      subst hl
      rfl

lemma lookupTok_mem {t : String} {i : ℕ} :
    ∀ {ti : List (String × ℕ)}, lookupTok ti t = some i → (t, i) ∈ ti := by
  intro ti
  induction ti with
  | nil => intro h; simp [lookupTok] at h
  | cons p rest ih =>
    intro h
    rw [lookupTok] at h
    by_cases hp : p.1 = t
    · rw [if_pos hp] at h
      have h2 : p.2 = i := by injection h
      have hpe : p = (t, i) := by rw [← hp, ← h2]
      exact hpe ▸ List.mem_cons_self p rest
    · rw [if_neg hp] at h
      exact List.mem_cons_of_mem p (ih h)

lemma lookupTok_eq_none {t : String} :
    ∀ {ti : List (String × ℕ)}, lookupTok ti t = none ↔ t ∉ ti.map Prod.fst := by
  intro ti
  induction ti with
  | nil => simp [lookupTok]
  | cons p rest ih =>
    rw [lookupTok]
    by_cases hp : p.1 = t
    · simp [hp]
    · simp only [if_neg hp, ih, List.map_cons, List.mem_cons]
      constructor
      · intro h hmem
        rcases hmem with h1 | h1
        · exact hp h1.symm
        · exact h h1
      · intro h h1
        exact h (Or.inr h1)

lemma lookupTok_append_of_none {t : String} {ti l2 : List (String × ℕ)}
    (h : lookupTok ti t = none) : lookupTok (ti ++ l2) t = lookupTok l2 t := by
  induction ti with
  | nil => rfl
  | cons p rest ih =>
    rw [lookupTok] at h
    by_cases hp : p.1 = t
    · rw [if_pos hp] at h; exact absurd h (by simp)
    · rw [if_neg hp] at h
      rw [List.cons_append, lookupTok, if_neg hp]
      exact ih h

/-- Uniform entry view of a JS array assignment: reading back index j gives
the written value at j = i and the old entry (0 for holes and out-of-range
reads) elsewhere. -/
lemma getD_arraySet (l : List ℕ) (i x j : ℕ) :
    (arraySet l i x).getD j 0 = if j = i then x else l.getD j 0 := by
  unfold arraySet
  by_cases hi : i < l.length
  · rw [if_pos hi]
    by_cases hj : j = i
    · subst hj
      rw [if_pos rfl, List.getD_eq_getElem?_getD, List.getElem?_set_self hi]
      rfl
    · rw [if_neg hj, List.getD_eq_getElem?_getD, List.getElem?_set_ne (fun h => hj h.symm),
        ← List.getD_eq_getElem?_getD]
  · rw [if_neg hi]
    push_neg at hi
    by_cases hj : j = i
    · subst hj
      rw [if_pos rfl, List.getD_eq_getElem?_getD]
      have hlen : (l ++ List.replicate (j - l.length) 0).length = j := by
        simp only [List.length_append, List.length_replicate]
        omega
      have hcat := List.getElem?_concat_length (l ++ List.replicate (j - l.length) 0) x
      rw [hlen] at hcat
      rw [hcat]
      rfl
    · rw [if_neg hj, List.getD_eq_getElem?_getD, List.getD_eq_getElem?_getD]
      by_cases hjl : j < l.length
      · rw [List.getElem?_append_left
          (show j < (l ++ List.replicate (i - l.length) 0).length by
            simp only [List.length_append, List.length_replicate]; omega),
          List.getElem?_append_left hjl]
      · push_neg at hjl
        rw [List.getElem?_eq_none_iff.mpr hjl]
        by_cases hji : j < i
        · rw [List.getElem?_append_left
            (show j < (l ++ List.replicate (i - l.length) 0).length by
              simp only [List.length_append, List.length_replicate]; omega),
            List.getElem?_append_right hjl, List.getElem?_replicate,
            if_pos (by omega)]
          rfl
        · rw [List.getElem?_eq_none_iff.mpr
            (show (l ++ List.replicate (i - l.length) 0 ++ [x]).length ≤ j by
              simp only [List.length_append, List.length_replicate, List.length_cons,
                List.length_nil]
              omega)]

lemma length_arraySet (l : List ℕ) (i x : ℕ) :
    (arraySet l i x).length = max l.length (i + 1) := by
  unfold arraySet
  by_cases hi : i < l.length
  · rw [if_pos hi, List.length_set]
    omega
  · rw [if_neg hi]
    simp [List.length_append, List.length_replicate]
    omega

/-- Invariant of the buildVocabulary fold state: the counter array and the
token map have the same size, every stored pair sits at the position its
index names, and keys are unique (JS Map semantics). -/
def VocabInv (ti : List (String × ℕ)) (df : List ℕ) : Prop :=
  df.length = ti.length ∧ (∀ p ∈ ti, ti[p.2]? = some p) ∧ (ti.map Prod.fst).Nodup

lemma VocabInv.idx_lt {ti : List (String × ℕ)} {df : List ℕ}
    (inv : VocabInv ti df) {p : String × ℕ} (hp : p ∈ ti) : p.2 < ti.length :=
  (List.getElem?_eq_some_iff.mp (inv.2.1 p hp)).1

lemma VocabInv.idx_inj {ti : List (String × ℕ)} {df : List ℕ}
    (inv : VocabInv ti df) {p q : String × ℕ} (hp : p ∈ ti) (hq : q ∈ ti)
    (h : p.2 = q.2) : p = q := by
  have h1 := inv.2.1 p hp
  have h2 := inv.2.1 q hq
  rw [h] at h1
  rw [h1] at h2
  injection h2

/-- Full effect of the forEach body on the state: the resulting map extends
the old one, it contains the token at some index it, the counter at it is
incremented by exactly one, and every other counter is unchanged. -/
lemma addToken_spec (ti : List (String × ℕ)) (df : List ℕ) (tok : String)
    (inv : VocabInv ti df) :
    ∃ it : ℕ,
      VocabInv (addToken (ti, df) tok).1 (addToken (ti, df) tok).2 ∧
      (∃ ext, (addToken (ti, df) tok).1 = ti ++ ext) ∧
      (tok, it) ∈ (addToken (ti, df) tok).1 ∧
      (addToken (ti, df) tok).2.getD it 0 = df.getD it 0 + 1 ∧
      (∀ j, j ≠ it → (addToken (ti, df) tok).2.getD j 0 = df.getD j 0) := by
  rcases hcase : lookupTok ti tok with _ | i
  · -- fresh token: appended at index ti.length
    have hlook : lookupTok (ti ++ [(tok, ti.length)]) tok = some ti.length := by
      rw [lookupTok_append_of_none hcase, lookupTok]
      simp
    have hunfold : addToken (ti, df) tok =
        (ti ++ [(tok, ti.length)],
          arraySet (arraySet df ti.length 0) ti.length
            ((arraySet df ti.length 0).getD ti.length 0 + 1)) := by
      simp [addToken, hcase, hlook]
    refine ⟨ti.length, ?_, ⟨[(tok, ti.length)], by rw [hunfold]⟩, ?_, ?_, ?_⟩
    · rw [hunfold]
      refine ⟨?_, ?_, ?_⟩
      · rw [length_arraySet, length_arraySet, List.length_append]
        simp only [List.length_cons, List.length_nil]
        have hlen := inv.1
        omega
      · intro p hp
        rcases List.mem_append.mp hp with hp1 | hp1
        · rw [List.getElem?_append_left (inv.idx_lt hp1)]
          exact inv.2.1 p hp1
        · have hp2 : p = (tok, ti.length) := by simpa using hp1
          subst hp2
          exact List.getElem?_concat_length ti (tok, ti.length)
      · rw [List.map_append]
        rw [List.nodup_append]
        refine ⟨inv.2.2, by simp, ?_⟩
        simp only [List.map_cons, List.map_nil]
        rw [List.disjoint_singleton]
        exact lookupTok_eq_none.mp hcase
    · rw [hunfold]
      exact List.mem_append_right ti (by simp)
    · rw [hunfold]
      have h0 : (arraySet df ti.length 0).getD ti.length 0 = 0 := by
        rw [getD_arraySet, if_pos rfl]
      have hout : df.getD ti.length 0 = 0 :=
        List.getD_eq_default df 0 (le_of_eq inv.1)
      show (arraySet (arraySet df ti.length 0) ti.length
          ((arraySet df ti.length 0).getD ti.length 0 + 1)).getD ti.length 0 =
        df.getD ti.length 0 + 1
      rw [h0, getD_arraySet, if_pos rfl, hout]
    · intro j hj
      rw [hunfold]
      simp only [getD_arraySet, if_neg hj]
  · -- token already present at index i
    have hunfold : addToken (ti, df) tok = (ti, arraySet df i (df.getD i 0 + 1)) := by
      simp [addToken, hcase]
    have hmem : (tok, i) ∈ ti := lookupTok_mem hcase
    have hi : i < df.length := by
      have hlt : i < ti.length := inv.idx_lt hmem
      have hlen := inv.1
      omega
    refine ⟨i, ?_, ⟨[], by rw [hunfold, List.append_nil]⟩, by rw [hunfold]; exact hmem, ?_, ?_⟩
    · rw [hunfold]
      refine ⟨?_, inv.2.1, inv.2.2⟩
      show (arraySet df i (df.getD i 0 + 1)).length = ti.length
      rw [length_arraySet]
      have hlen := inv.1
      omega
    · rw [hunfold]
      show (arraySet df i (df.getD i 0 + 1)).getD i 0 = df.getD i 0 + 1
      rw [getD_arraySet, if_pos rfl]
    · intro j hj
      rw [hunfold]
      show (arraySet df i (df.getD i 0 + 1)).getD j 0 = df.getD j 0
      rw [getD_arraySet, if_neg hj]

/-- Effect of folding one document's distinct tokens: the invariant is kept,
the map only grows, every counter rises by at most one, and counters of
tokens absent from the document are untouched. -/
lemma foldTokens_spec (ts : List String) : ts.Nodup →
    ∀ (ti : List (String × ℕ)) (df : List ℕ), VocabInv ti df →
    VocabInv (ts.foldl addToken (ti, df)).1 (ts.foldl addToken (ti, df)).2 ∧
    (∃ ext, (ts.foldl addToken (ti, df)).1 = ti ++ ext) ∧
    (∀ j, (ts.foldl addToken (ti, df)).2.getD j 0 ≤ df.getD j 0 + 1) ∧
    (∀ p ∈ ti, p.1 ∉ ts → (ts.foldl addToken (ti, df)).2.getD p.2 0 = df.getD p.2 0) := by
  induction ts with
  | nil =>
    intro _ ti df inv
    exact ⟨inv, ⟨[], (List.append_nil ti).symm⟩,
      fun j => Nat.le_succ _, fun p _ _ => rfl⟩
  | cons t ts ih =>
    intro hnodup ti df inv
    obtain ⟨hnt, hnd⟩ := List.nodup_cons.mp hnodup
    obtain ⟨it, inv1, ⟨ext1, hext1⟩, hmem1, hinc1, hoth1⟩ := addToken_spec ti df t inv
    rw [List.foldl_cons]
    have hpair : addToken (ti, df) t = ((addToken (ti, df) t).1, (addToken (ti, df) t).2) := rfl
    rw [hpair]
    obtain ⟨inv2, ⟨ext2, hext2⟩, hbound2, huntouched2⟩ :=
      ih hnd (addToken (ti, df) t).1 (addToken (ti, df) t).2 inv1
    refine ⟨inv2, ⟨ext1 ++ ext2, by rw [hext2, hext1, List.append_assoc]⟩, ?_, ?_⟩
    · intro j
      by_cases hj : j = it
      · subst hj
        have hfinal := huntouched2 (t, j) hmem1 hnt
        simp only at hfinal
        rw [hfinal, hinc1]
      · have := hbound2 j
        rw [hoth1 j hj] at this
        exact this
    · intro p hp hpts
      have hpt : p.1 ≠ t := fun h => hpts (h ▸ List.mem_cons_self t ts)
      have hpts2 : p.1 ∉ ts := fun h => hpts (List.mem_cons_of_mem t h)
      have hpmem1 : p ∈ (addToken (ti, df) t).1 := by
        rw [hext1]; exact List.mem_append_left ext1 hp
      have hne : p.2 ≠ it := by
        intro h
        have : p = (t, it) := inv1.idx_inj hpmem1 hmem1 h
        exact hpt (by rw [this])
      rw [huntouched2 p hpmem1 hpts2, hoth1 p.2 hne]

lemma distinctTokens_nodup_aux (ts : List String) : ∀ acc : List String, acc.Nodup →
    (ts.foldl (fun acc t => if t ∈ acc then acc else acc ++ [t]) acc).Nodup := by
  induction ts with
  | nil => intro acc h; exact h
  | cons t ts ih =>
    intro acc h
    rw [List.foldl_cons]
    by_cases ht : t ∈ acc
    · rw [if_pos ht]; exact ih acc h
    · rw [if_neg ht]
      refine ih (acc ++ [t]) ?_
      rw [List.nodup_append]
      exact ⟨h, by simp, List.disjoint_singleton.mpr ht⟩

lemma distinctTokens_nodup (ts : List String) : (distinctTokens ts).Nodup :=
  distinctTokens_nodup_aux ts [] List.nodup_nil

/-- Over the whole corpus: the invariant is kept and every counter is
bounded by the starting bound plus the number of documents folded. -/
lemma buildVocabFold_spec (docs : List String) :
    ∀ (ti : List (String × ℕ)) (df : List ℕ) (k : ℕ), VocabInv ti df →
    (∀ j, df.getD j 0 ≤ k) →
    VocabInv (docs.foldl
        (fun st doc => (distinctTokens (tokenize doc)).foldl addToken st) (ti, df)).1
      (docs.foldl
        (fun st doc => (distinctTokens (tokenize doc)).foldl addToken st) (ti, df)).2 ∧
    (∀ j, (docs.foldl
        (fun st doc => (distinctTokens (tokenize doc)).foldl addToken st) (ti, df)).2.getD j 0 ≤
      k + docs.length) := by
  induction docs with
  | nil =>
    intro ti df k inv hk
    exact ⟨inv, fun j => by simpa using hk j⟩
  | cons d ds ih =>
    intro ti df k inv hk
    rw [List.foldl_cons]
    have hpair : (distinctTokens (tokenize d)).foldl addToken (ti, df) =
        (((distinctTokens (tokenize d)).foldl addToken (ti, df)).1,
         ((distinctTokens (tokenize d)).foldl addToken (ti, df)).2) := rfl
    rw [hpair]
    obtain ⟨inv1, _, hbound1, _⟩ :=
      foldTokens_spec (distinctTokens (tokenize d)) (distinctTokens_nodup _) ti df inv
    have hk1 : ∀ j, ((distinctTokens (tokenize d)).foldl addToken (ti, df)).2.getD j 0 ≤ k + 1 :=
      fun j => le_trans (hbound1 j) (Nat.add_le_add_right (hk j) 1)
    obtain ⟨inv2, hbound2⟩ := ih _ _ (k + 1) inv1 hk1
    refine ⟨inv2, fun j => ?_⟩
    have := hbound2 j
    rw [List.length_cons]
    omega

/-- Claim C6: a vocabulary built from N documents has exactly one document
frequency counter per token index, records docCount = N, and no counter
exceeds N, because repeated occurrences of a token inside one document
count only once. -/
theorem buildVocabulary_invariants (documents : List String) :
    (buildVocabulary documents).docFreq.length = (buildVocabulary documents).tokenIndex.length ∧
    (buildVocabulary documents).docCount = documents.length ∧
    (∀ f ∈ (buildVocabulary documents).docFreq, f ≤ documents.length) := by
  have base : VocabInv [] [] := ⟨rfl, by simp, List.nodup_nil⟩
  have hbound : ∀ j, ([] : List ℕ).getD j 0 ≤ 0 := fun j => by simp
  obtain ⟨inv, hfin⟩ := buildVocabFold_spec documents [] [] 0 base hbound
  refine ⟨inv.1, rfl, ?_⟩
  intro f hf
  obtain ⟨j, hj, hje⟩ := List.mem_iff_getElem.mp hf
  have hgd : (buildVocabulary documents).docFreq.getD j 0 = f := by
    rw [List.getD_eq_getElem?_getD, List.getElem?_eq_some_iff.mpr ⟨hj, hje⟩]
    rfl
  have := hfin j
  rw [show (documents.foldl
      (fun st doc => (distinctTokens (tokenize doc)).foldl addToken st)
      ([], [])).2 = (buildVocabulary documents).docFreq from rfl, hgd] at this
  simpa using this

/-- Witness for buildVocabulary_invariants on the two documents
["a a", "a b"]: the counter 2 of token a is an entry of docFreq and is at
most the document count 2. -/
theorem buildVocabulary_invariants_witness :
    (2 : ℕ) ∈ (buildVocabulary ["a a", "a b"]).docFreq ∧
    (2 : ℕ) ≤ (["a a", "a b"] : List String).length :=
  ⟨by decide, (buildVocabulary_invariants ["a a", "a b"]).2.2 2 (by decide)⟩

lemma aiPercentageOf_bounds (ai total : ℕ) (h : ai ≤ total) :
    0 ≤ aiPercentageOf ai total ∧ aiPercentageOf ai total ≤ 100 := by
  unfold aiPercentageOf
  by_cases ht : 0 < total
  · rw [if_pos ht]
    have htr : (0 : ℝ) < total := by exact_mod_cast ht
    have hdiv : (ai : ℝ) / total ≤ 1 := (div_le_one htr).mpr (by exact_mod_cast h)
    constructor
    · exact mul_nonneg (div_nonneg (Nat.cast_nonneg ai) (Nat.cast_nonneg total)) (by norm_num)
    · calc (ai : ℝ) / total * 100 ≤ 1 * 100 :=
            mul_le_mul_of_nonneg_right hdiv (by norm_num)
        _ = 100 := by norm_num
  · rw [if_neg ht]
    norm_num

/-- Claim C10: every retained line counts once toward totalLines and at most once
toward aiGeneratedLines, so aiGeneratedLines never exceeds totalLines and
aiPercentage always lies in [0, 100]. -/
theorem attribution_result_bounds (snapshots : List ChangeSnapshot)
    (currentDiff : List (String × List String)) (threshold : ℝ) :
    (attributeCore snapshots currentDiff threshold).aiGeneratedLines ≤
      (attributeCore snapshots currentDiff threshold).totalLines ∧
    0 ≤ (attributeCore snapshots currentDiff threshold).aiPercentage ∧
    (attributeCore snapshots currentDiff threshold).aiPercentage ≤ 100 := by
  have hle : aiLineCount snapshots currentDiff threshold ≤
      (currentSegments currentDiff).length := List.length_filter_le _ _
  have hb := aiPercentageOf_bounds (aiLineCount snapshots currentDiff threshold)
    (currentSegments currentDiff).length hle
  exact ⟨hle, hb.1, hb.2⟩

/-- Claim C7: aiPercentage is 100 * aiGeneratedLines / totalLines whenever
totalLines is positive, is 0 (not undefined) when totalLines is 0, and
needsCoAuthor holds exactly when aiPercentage is strictly greater than 10. -/
theorem attribution_percentage_policy (snapshots : List ChangeSnapshot)
    (currentDiff : List (String × List String)) (threshold : ℝ) :
    ((attributeCore snapshots currentDiff threshold).totalLines ≠ 0 →
      (attributeCore snapshots currentDiff threshold).aiPercentage =
        100 * ((attributeCore snapshots currentDiff threshold).aiGeneratedLines : ℝ) /
          ((attributeCore snapshots currentDiff threshold).totalLines : ℝ)) ∧
    ((attributeCore snapshots currentDiff threshold).totalLines = 0 →
      (attributeCore snapshots currentDiff threshold).aiPercentage = 0) ∧
    ((attributeCore snapshots currentDiff threshold).needsCoAuthor = true ↔
      (attributeCore snapshots currentDiff threshold).aiPercentage > 10) := by
  refine ⟨?_, ?_, ?_⟩
  · intro h
    have ht : 0 < (currentSegments currentDiff).length := Nat.pos_of_ne_zero h
    show aiPercentageOf (aiLineCount snapshots currentDiff threshold)
      (currentSegments currentDiff).length =
      100 * (aiLineCount snapshots currentDiff threshold : ℝ) /
        ((currentSegments currentDiff).length : ℝ)
    unfold aiPercentageOf
    rw [if_pos ht]
    ring
  · intro h
    have h0 : (currentSegments currentDiff).length = 0 := h
    show aiPercentageOf (aiLineCount snapshots currentDiff threshold)
      (currentSegments currentDiff).length = 0
    unfold aiPercentageOf
    rw [if_neg (by omega)]
  · exact ⟨of_decide_eq_true, decide_eq_true⟩

/-- Witness for attribution_percentage_policy: empty snapshot corpus and a
one-line diff give totalLines 1, so the positive branch applies. -/
theorem attribution_percentage_policy_witness :
    (attributeCore [] [("f.ts", ["x"])] (0.85 : ℝ)).totalLines ≠ 0 ∧
    (attributeCore [] [("f.ts", ["x"])] (0.85 : ℝ)).aiPercentage =
      100 * ((attributeCore [] [("f.ts", ["x"])] (0.85 : ℝ)).aiGeneratedLines : ℝ) /
        ((attributeCore [] [("f.ts", ["x"])] (0.85 : ℝ)).totalLines : ℝ) :=
  ⟨by decide, (attribution_percentage_policy [] [("f.ts", ["x"])] (0.85 : ℝ)).1 (by decide)⟩

/-- Claim C1 (code bug): with an empty snapshot corpus and a non-empty current
diff, the engine reports aiPercentage 0, not 100 — every scan sees no
snapshot vector, maxSimilarity stays 0 below the 0.85 threshold, and no
fallback branch exists. -/
theorem attribution_empty_corpus_reports_zero :
    (attributeCore [] [("f.ts", ["x"])] (0.85 : ℝ)).totalLines = 1 ∧
    (attributeCore [] [("f.ts", ["x"])] (0.85 : ℝ)).aiGeneratedLines = 0 ∧
    (attributeCore [] [("f.ts", ["x"])] (0.85 : ℝ)).aiPercentage = 0 := by
  have hcur : currentSegments [("f.ts", ["x"])] = ["x"] := by decide
  have hsnapvec : snapshotVectorsOf [] [("f.ts", ["x"])] = [] := rfl
  have hai : aiLineCount [] [("f.ts", ["x"])] (0.85 : ℝ) = 0 := by
    unfold aiLineCount
    rw [hcur]
    simp only [hsnapvec, List.filter_cons, List.filter_nil]
    have hl : lineMaxSim (vectorize "x" (vocabularyOf [] [("f.ts", ["x"])])) []
        (0.85 : ℝ) = 0 := rfl
    rw [hl, decide_eq_false (show ¬((0.85 : ℝ) ≤ 0) by norm_num)]
    simp
  refine ⟨by decide, hai, ?_⟩
  show aiPercentageOf (aiLineCount [] [("f.ts", ["x"])] (0.85 : ℝ))
    (currentSegments [("f.ts", ["x"])]).length = 0
  rw [hai, hcur]
  unfold aiPercentageOf
  norm_num
